import Mathlib

/-!
Verification of the segmentation-and-classification core of the Text
Splitter application (`splitText` in `src/App.tsx`).

The embedding models JavaScript strings as `List Char` (one element per
UTF-16 code unit; all characters involved are in the BMP).  Each source
operation is translated directly:

* `text.replace(/\r\n/g, '\n')`  →  `sanitize` (single left-to-right pass
  replacing non-overlapping CRLF pairs);
* `String.prototype.lastIndexOf(c, from)`  →  `lastIndexOfFrom`
  (largest index `≤ from` holding `c`, `none` when absent);
* `String.prototype.slice(a, b)`  →  `(s.drop a).take (b - a)`;
* `String.prototype.includes(pat)`  →  `containsSeq`;
* the `while` loop of `splitText`  →  `splitLoop`, written with explicit
  fuel and returning `none` when the fuel runs out before the loop
  finishes, so that termination of the source loop is a provable
  statement rather than an artifact of the embedding.
-/

/-- The enum `BlockType` from `src/unnamed/part_000` (`types.ts`). -/
inductive BlockType where
  | NORMAL
  | SPECIAL_TRIGGER
  | POST_SPECIAL
deriving DecidableEq, Repr

/-- The record `TextBlock` from `src/unnamed/part_000` (`types.ts`). -/
structure TextBlock where
  id : String
  content : List Char
  type : BlockType
deriving DecidableEq, Repr

/-- The constant `MAX_CHARS` from `src/App.tsx`. -/
def MAX_CHARS : Nat := 4950

/-- The hardcoded marker `'[&$]'` from `src/App.tsx`. -/
def specialMarker : List Char := ['[', '&', '$', ']']

/-- Embedding of `text.replace(/\r\n/g, '\n')`: one left-to-right pass replacing each
non-overlapping CRLF pair by LF; the replacement itself is not rescanned. -/
def sanitize : List Char → List Char
  | [] => []
  | [a] => [a]
  | a :: b :: rest =>
    if a = '\r' ∧ b = '\n' then '\n' :: sanitize rest
    else a :: sanitize (b :: rest)

/-- Tail of `lastIndexOfFrom`: walk the list left to right keeping the last
index `≤ upTo` whose character equals `c`. -/
def lastIdxAux (c : Char) (upTo : Nat) : List Char → Nat → Option Nat → Option Nat
  | [], _, best => best
  | a :: rest, idx, best =>
    if upTo < idx then best
    else lastIdxAux c upTo rest (idx + 1) (if a = c then some idx else best)

/-- Embedding of `s.lastIndexOf(c, upTo)`: greatest index `≤ upTo` whose character is `c`
(JavaScript returns `-1` when there is none; we return `none`). -/
def lastIndexOfFrom (s : List Char) (c : Char) (upTo : Nat) : Option Nat :=
  lastIdxAux c upTo s 0 none

/-- Whether `pat` is a prefix of `s` (character-by-character). -/
def isPrefixList : List Char → List Char → Bool
  | [], _ => true
  | _ :: _, [] => false
  | p :: ps, a :: rest => if p = a then isPrefixList ps rest else false

/-- Embedding of `s.includes(pat)`: `pat` occurs as a contiguous subsequence of `s`. -/
def containsSeq : List Char → List Char → Bool
  | [], pat => isPrefixList pat []
  | a :: rest, pat => isPrefixList pat (a :: rest) || containsSeq rest pat

/-- The chunk-boundary computation of one iteration of the `splitText` loop:
tentatively `pos + maxLen`; if that is strictly inside the text, back off to
the nearest line break at or before it provided that break is strictly after
`pos`; otherwise the chunk runs to the end of the text. -/
def nextEnd (maxLen : Nat) (s : List Char) (pos : Nat) : Nat :=
  if pos + maxLen < s.length then
    match lastIndexOfFrom s '\n' (pos + maxLen) with
    | some j => if pos < j then j else pos + maxLen
    | none => pos + maxLen
  else s.length

/-- The `while` loop of `splitText`, with explicit fuel.  Returns `none` when
the fuel is exhausted while text remains (the source loop would still be
running), mirroring the body otherwise: slice the chunk, classify it from the
carried `specialTriggered` flag and the marker test, emit the block, advance
past the boundary and past one swallowed line break. -/
def splitLoop (maxLen : Nat) (marker : List Char) (fid : String) (s : List Char) :
    Nat → Nat → Bool → Nat → Option (List TextBlock)
  | 0, _, _, _ => none
  | fuel + 1, pos, triggered, idx =>
    if pos < s.length then
      let e := nextEnd maxLen s pos
      let chunk := (s.drop pos).take (e - pos)
      let sp := containsSeq chunk marker
      let ty := if triggered then BlockType.POST_SPECIAL
                else if sp then BlockType.SPECIAL_TRIGGER
                else BlockType.NORMAL
      let pos2 := if s[e]? = some '\n' then e + 1 else e
      (splitLoop maxLen marker fid s fuel pos2 (triggered || sp) (idx + 1)).map
        (fun bs =>
          { id := "block-" ++ fid ++ "-" ++ toString idx ++ "-" ++ toString chunk.length,
            content := chunk, type := ty } :: bs)
    else some []

/-- The function `splitText` generalized over the configuration surface (`maxChunkLength`,
`marker`) and the run token `fid`; the fuel `length + 1` suffices whenever
`maxLen ≥ 1` (proved below), so `getD []` is never the exhausted case there. -/
def splitTextGen (maxLen : Nat) (marker : List Char) (fid : String) (text : List Char) :
    List TextBlock :=
  let st := sanitize text
  (splitLoop maxLen marker fid st (st.length + 1) 0 false 0).getD []

/-- The production `splitText` from `src/App.tsx`: the production configuration
`MAX_CHARS = 4950`, marker `'[&$]'`; `fid` is the run-scoped token the source
derives from `Date.now()`. -/
def splitText (fid : String) (text : List Char) : List TextBlock :=
  splitTextGen MAX_CHARS specialMarker fid text

/-- Whether the boundary chosen at `pos` is a soft break: the tentative
boundary `pos + maxLen` lies strictly inside the text and the backward search
found a line break strictly after `pos`. -/
def isSoft (maxLen : Nat) (s : List Char) (pos : Nat) : Bool :=
  if pos + maxLen < s.length then
    match lastIndexOfFrom s '\n' (pos + maxLen) with
    | some j => decide (pos < j)
    | none => false
  else false

/-- The per-iteration soft-break flags of the `splitText` loop, mirroring the
position advancement of `splitLoop` exactly. -/
def softFlags (maxLen : Nat) (s : List Char) : Nat → Nat → List Bool
  | 0, _ => []
  | fuel + 1, pos =>
    if pos < s.length then
      let e := nextEnd maxLen s pos
      isSoft maxLen s pos :: softFlags maxLen s fuel (if s[e]? = some '\n' then e + 1 else e)
    else []

/-- Reassemble chunk contents, reinserting one LF after every chunk whose
boundary flag is `true` and nothing after the others. -/
def joinChunks : List (List Char × Bool) → List Char
  | [] => []
  | (c, f) :: rest => c ++ (if f then ['\n'] else []) ++ joinChunks rest

/-- Accepts exactly the category sequences matching `POST_SPECIAL*`. -/
def afterOk : List BlockType → Bool
  | [] => true
  | BlockType.POST_SPECIAL :: rest => afterOk rest
  | _ => false

/-- Accepts exactly the category sequences matching the regular pattern
`NORMAL* (SPECIAL_TRIGGER POST_SPECIAL*)?`. -/
def catsOk : List BlockType → Bool
  | [] => true
  | BlockType.NORMAL :: rest => catsOk rest
  | BlockType.SPECIAL_TRIGGER :: rest => afterOk rest
  | BlockType.POST_SPECIAL :: _ => false

/-- Modelled from the spec: the failure reported at the configuration
boundary (§7) for configuration misuse; no such reporting exists in `src`,
where `maxChunkLength` and `marker` are hardcoded constants. -/
inductive ConfigError where
  | InvalidConfiguration
deriving DecidableEq, Repr

/-- Modelled from the spec: the configuration surface of §6 —
`maxChunkLength` (an integer, so that "non-positive" is expressible) and
`marker`; absent from `src`, which hardcodes `MAX_CHARS = 4950` and
`'[&$]'`. -/
structure SplitConfig where
  maxChunkLength : Int
  marker : List Char
deriving DecidableEq, Repr

/-- Modelled from the spec: the validation boundary of §7 — non-positive
`maxChunkLength` or empty `marker` is a caller error reported as
`InvalidConfiguration` before segmentation runs; absent from `src`. -/
def validateConfig (cfg : SplitConfig) : Except ConfigError Unit :=
  if cfg.maxChunkLength < 1 ∨ cfg.marker = [] then .error .InvalidConfiguration
  else .ok ()

/-- Modelled from the spec: segmentation behind the validation boundary of
§7 — the core runs only when validation succeeds; absent from `src`. -/
def runSegmentation (cfg : SplitConfig) (fid : String) (text : List Char) :
    Except ConfigError (List TextBlock) :=
  match validateConfig cfg with
  | .error e => .error e
  | .ok _ => .ok (splitTextGen cfg.maxChunkLength.toNat cfg.marker fid text)

/-- The C4 scenario input: 4948 filler characters followed by the marker, so
that the hard break at `MAX_CHARS = 4950` falls between `[&` and `$]`. -/
def c4input : List Char := List.replicate 4948 'a' ++ specialMarker


/-! ### Specification lemmas for `lastIndexOfFrom` -/

theorem lastIdxAux_of_upTo_lt (c : Char) (upTo : Nat) (l : List Char) (idx : Nat)
    (best : Option Nat) (h : upTo < idx) : lastIdxAux c upTo l idx best = best := by
  cases l with
  | nil => rfl
  | cons a rest => simp [lastIdxAux, h]

theorem lastIdxAux_mem (c : Char) (upTo : Nat) (s : List Char) :
    ∀ (l : List Char) (idx : Nat) (best : Option Nat),
      (∀ k, l[k]? = s[idx + k]?) →
      (∀ j, best = some j → j ≤ upTo ∧ s[j]? = some c) →
      ∀ j, lastIdxAux c upTo l idx best = some j → j ≤ upTo ∧ s[j]? = some c
  | [], idx, best, _, hbest, j, hres => hbest j hres
  | a :: rest, idx, best, hpos, hbest, j, hres => by
    rw [lastIdxAux] at hres
    by_cases hup : upTo < idx
    · rw [if_pos hup] at hres
      exact hbest j hres
    · rw [if_neg hup] at hres
      refine lastIdxAux_mem c upTo s rest (idx + 1) _ ?_ ?_ j hres
      · intro k
        have := hpos (k + 1)
        simpa [Nat.add_assoc, Nat.add_comm 1 k] using this
      · intro j' hj'
        by_cases hac : a = c
        · rw [if_pos hac] at hj'
          cases hj'
          refine ⟨Nat.le_of_not_lt hup, ?_⟩
          have := hpos 0
          simpa [hac] using this.symm
        · rw [if_neg hac] at hj'
          exact hbest j' hj'

/-- When `lastIndexOfFrom` finds an index, that index is at most `upTo` and
holds the searched character. -/
theorem lastIndexOfFrom_some (s : List Char) (c : Char) (upTo j : Nat)
    (h : lastIndexOfFrom s c upTo = some j) : j ≤ upTo ∧ s[j]? = some c :=
  lastIdxAux_mem c upTo s s 0 none (fun k => by simp) (fun j' hj' => by cases hj') j h

theorem lastIdxAux_hit (c : Char) (upTo : Nat) :
    ∀ (l : List Char) (idx : Nat) (best : Option Nat),
      idx ≤ upTo → l[upTo - idx]? = some c →
      lastIdxAux c upTo l idx best = some upTo
  | [], idx, best, _, hget => by simp at hget
  | a :: rest, idx, best, hle, hget => by
    rw [lastIdxAux, if_neg (Nat.not_lt.mpr hle)]
    rcases Nat.lt_or_ge idx upTo with hlt | hge
    · have hsub : upTo - idx = (upTo - (idx + 1)) + 1 := by omega
      rw [hsub] at hget
      simp only [List.getElem?_cons_succ] at hget
      exact lastIdxAux_hit c upTo rest (idx + 1) _ hlt hget
    · have heq : idx = upTo := Nat.le_antisymm hle hge
      subst heq
      simp only [Nat.sub_self, List.getElem?_cons_zero, Option.some.injEq] at hget
      rw [if_pos hget]
      exact lastIdxAux_of_upTo_lt c idx rest (idx + 1) _ (Nat.lt_succ_self idx)

/-- When the character at `upTo` itself is the searched character, the
backward search returns `upTo`. -/
theorem lastIndexOfFrom_at_upTo (s : List Char) (c : Char) (upTo : Nat)
    (h : s[upTo]? = some c) : lastIndexOfFrom s c upTo = some upTo :=
  lastIdxAux_hit c upTo s 0 none (Nat.zero_le _) (by simpa using h)

theorem lastIdxAux_not_mem (c : Char) (upTo : Nat) :
    ∀ (l : List Char) (idx : Nat), (∀ x ∈ l, x ≠ c) →
      lastIdxAux c upTo l idx none = none
  | [], _, _ => rfl
  | a :: rest, idx, h => by
    rw [lastIdxAux]
    by_cases hup : upTo < idx
    · rw [if_pos hup]
    · rw [if_neg hup, if_neg (h a (by simp))]
      exact lastIdxAux_not_mem c upTo rest (idx + 1) (fun x hx => h x (by simp [hx]))

/-- When the searched character does not occur at all, the backward search
finds nothing. -/
theorem lastIndexOfFrom_of_not_mem (s : List Char) (c : Char) (upTo : Nat)
    (h : c ∉ s) : lastIndexOfFrom s c upTo = none :=
  lastIdxAux_not_mem c upTo s 0 (fun x hx hxc => h (hxc ▸ hx))

/-! ### Lemmas about `nextEnd` -/

/-- With `maxLen ≥ 1`, each iteration's boundary lies strictly after the
current position: soft boundaries pass the `lastNewLine > currentPos` guard,
hard boundaries advance by `maxLen`, the terminal boundary is the text end. -/
theorem nextEnd_gt (maxLen : Nat) (s : List Char) (pos : Nat)
    (hm : 1 ≤ maxLen) (hpos : pos < s.length) : pos < nextEnd maxLen s pos := by
  rw [nextEnd]
  by_cases h : pos + maxLen < s.length
  · rw [if_pos h]
    cases hfind : lastIndexOfFrom s '\n' (pos + maxLen) with
    | none => exact (by omega : pos < pos + maxLen)
    | some j =>
      by_cases hj : pos < j
      · simpa [hj] using hj
      · simpa [hj] using (by omega : pos < pos + maxLen)
  · rw [if_neg h]
    exact hpos

theorem nextEnd_le_length (maxLen : Nat) (s : List Char) (pos : Nat) :
    nextEnd maxLen s pos ≤ s.length := by
  rw [nextEnd]
  by_cases h : pos + maxLen < s.length
  · rw [if_pos h]
    cases hfind : lastIndexOfFrom s '\n' (pos + maxLen) with
    | none => exact (by omega : pos + maxLen ≤ s.length)
    | some j =>
      have hj := (lastIndexOfFrom_some s '\n' (pos + maxLen) j hfind).1
      by_cases hjp : pos < j
      · simpa [hjp] using (by omega : j ≤ s.length)
      · simpa [hjp] using (by omega : pos + maxLen ≤ s.length)
  · rw [if_neg h]

/-- Each chunk spans at most `maxLen` positions. -/
theorem nextEnd_sub_le (maxLen : Nat) (s : List Char) (pos : Nat) :
    nextEnd maxLen s pos - pos ≤ maxLen := by
  rw [nextEnd]
  by_cases h : pos + maxLen < s.length
  · rw [if_pos h]
    cases hfind : lastIndexOfFrom s '\n' (pos + maxLen) with
    | none => exact (by omega : pos + maxLen - pos ≤ maxLen)
    | some j =>
      have hj := (lastIndexOfFrom_some s '\n' (pos + maxLen) j hfind).1
      by_cases hjp : pos < j
      · simpa [hjp] using (by omega : j - pos ≤ maxLen)
      · simpa [hjp] using (by omega : pos + maxLen - pos ≤ maxLen)
  · rw [if_neg h]
    omega

/-- A line break sits at the chosen boundary exactly when the boundary is a
soft break: soft boundaries are positions of line breaks, while a line break
at a would-be hard boundary would itself have been found by the backward
search, and the text end holds no character at all. -/
theorem swallowed_iff_isSoft (maxLen : Nat) (s : List Char) (pos : Nat)
    (hm : 1 ≤ maxLen) :
    s[nextEnd maxLen s pos]? = some '\n' ↔ isSoft maxLen s pos = true := by
  rw [nextEnd, isSoft]
  by_cases h : pos + maxLen < s.length
  · rw [if_pos h, if_pos h]
    cases hfind : lastIndexOfFrom s '\n' (pos + maxLen) with
    | none =>
      simp only [iff_false, Bool.false_eq_true]
      intro hnl
      rw [lastIndexOfFrom_at_upTo s '\n' (pos + maxLen) hnl] at hfind
      cases hfind
    | some j =>
      by_cases hjp : pos < j
      · have hj := (lastIndexOfFrom_some s '\n' (pos + maxLen) j hfind).2
        simp [hjp, hj]
      · simp only [hjp, if_false, decide_eq_true_eq, Bool.false_eq_true, iff_false]
        intro hnl
        rw [lastIndexOfFrom_at_upTo s '\n' (pos + maxLen) hnl] at hfind
        cases hfind
        omega
  · rw [if_neg h, if_neg h]
    simp [List.getElem?_eq_none (by omega : s.length ≤ s.length)]

/-! ### Unfolding lemmas for `splitLoop` and `softFlags` -/

theorem splitLoop_zero (maxLen : Nat) (marker : List Char) (fid : String) (s : List Char)
    (pos : Nat) (trig : Bool) (idx : Nat) :
    splitLoop maxLen marker fid s 0 pos trig idx = none := rfl

theorem splitLoop_stop (maxLen : Nat) (marker : List Char) (fid : String) (s : List Char)
    (fuel pos : Nat) (trig : Bool) (idx : Nat) (h : ¬ pos < s.length) :
    splitLoop maxLen marker fid s (fuel + 1) pos trig idx = some [] := by
  rw [splitLoop, if_neg h]

theorem splitLoop_step (maxLen : Nat) (marker : List Char) (fid : String) (s : List Char)
    (fuel pos : Nat) (trig : Bool) (idx : Nat) (h : pos < s.length) :
    splitLoop maxLen marker fid s (fuel + 1) pos trig idx =
      (splitLoop maxLen marker fid s fuel
          (if s[nextEnd maxLen s pos]? = some '\n' then nextEnd maxLen s pos + 1
           else nextEnd maxLen s pos)
          (trig || containsSeq ((s.drop pos).take (nextEnd maxLen s pos - pos)) marker)
          (idx + 1)).map
        (fun bs =>
          { id := "block-" ++ fid ++ "-" ++ toString idx ++ "-" ++
              toString ((s.drop pos).take (nextEnd maxLen s pos - pos)).length,
            content := (s.drop pos).take (nextEnd maxLen s pos - pos),
            type :=
              if trig then BlockType.POST_SPECIAL
              else if containsSeq ((s.drop pos).take (nextEnd maxLen s pos - pos)) marker then
                BlockType.SPECIAL_TRIGGER
              else BlockType.NORMAL } :: bs) := by
  rw [splitLoop, if_pos h]

theorem softFlags_stop (maxLen : Nat) (s : List Char) (fuel pos : Nat)
    (h : ¬ pos < s.length) : softFlags maxLen s (fuel + 1) pos = [] := by
  rw [softFlags, if_neg h]

theorem softFlags_step (maxLen : Nat) (s : List Char) (fuel pos : Nat)
    (h : pos < s.length) :
    softFlags maxLen s (fuel + 1) pos =
      isSoft maxLen s pos ::
        softFlags maxLen s fuel
          (if s[nextEnd maxLen s pos]? = some '\n' then nextEnd maxLen s pos + 1
           else nextEnd maxLen s pos) := by
  rw [softFlags, if_pos h]

/-! ### Fuel sufficiency: the loop finishes within `length` iterations -/

/-- With `maxLen ≥ 1`, any fuel exceeding the remaining text length lets the
loop run to completion. -/
theorem splitLoop_isSome (maxLen : Nat) (marker : List Char) (fid : String) (s : List Char)
    (hm : 1 ≤ maxLen) :
    ∀ (fuel pos : Nat) (trig : Bool) (idx : Nat), s.length - pos < fuel →
      (splitLoop maxLen marker fid s fuel pos trig idx).isSome = true
  | 0, pos, _, _, hfuel => absurd hfuel (by omega)
  | fuel + 1, pos, trig, idx, hfuel => by
    by_cases h : pos < s.length
    · rw [splitLoop_step maxLen marker fid s fuel pos trig idx h]
      have he := nextEnd_gt maxLen s pos hm h
      have hrec :
          (splitLoop maxLen marker fid s fuel
            (if s[nextEnd maxLen s pos]? = some '\n' then nextEnd maxLen s pos + 1
             else nextEnd maxLen s pos)
            (trig || containsSeq ((s.drop pos).take (nextEnd maxLen s pos - pos)) marker)
            (idx + 1)).isSome = true := by
        refine splitLoop_isSome maxLen marker fid s hm fuel _ _ _ ?_
        by_cases hnl : s[nextEnd maxLen s pos]? = some '\n'
        · rw [if_pos hnl]
          omega
        · rw [if_neg hnl]
          omega
      rw [Option.isSome_map']
      exact hrec
    · rw [splitLoop_stop maxLen marker fid s fuel pos trig idx h]
      rfl

/-! ### Reconstruction: chunks plus swallowed separators cover the text -/

/-- Loop invariant behind the totality/coverage property: the blocks emitted
from position `pos` onward, joined with one LF after each soft break,
reproduce the text from `pos` onward. -/
theorem splitLoop_join (maxLen : Nat) (marker : List Char) (fid : String) (s : List Char)
    (hm : 1 ≤ maxLen) :
    ∀ (fuel pos : Nat) (trig : Bool) (idx : Nat) (bs : List TextBlock),
      splitLoop maxLen marker fid s fuel pos trig idx = some bs →
      joinChunks ((bs.map TextBlock.content).zip (softFlags maxLen s fuel pos)) = s.drop pos
  | 0, pos, trig, idx, bs, h => by rw [splitLoop_zero] at h; cases h
  | fuel + 1, pos, trig, idx, bs, h => by
    by_cases hpos : pos < s.length
    · rw [splitLoop_step maxLen marker fid s fuel pos trig idx hpos] at h
      rcases Option.map_eq_some'.mp h with ⟨bs', hrec, hbs⟩
      subst hbs
      have ih := splitLoop_join maxLen marker fid s hm fuel _ _ _ bs' hrec
      rw [softFlags_step maxLen s fuel pos hpos]
      simp only [List.map_cons, List.zip_cons_cons, joinChunks, List.zip] at ih ⊢
      rw [ih]
      have hpe : pos < nextEnd maxLen s pos := nextEnd_gt maxLen s pos hm hpos
      conv_rhs => rw [← List.take_append_drop (nextEnd maxLen s pos - pos) (s.drop pos)]
      rw [List.drop_drop]
      have hsum : pos + (nextEnd maxLen s pos - pos) = nextEnd maxLen s pos := by omega
      rw [hsum, List.append_assoc]
      congr 1
      by_cases hnl : s[nextEnd maxLen s pos]? = some '\n'
      · have hsoft : isSoft maxLen s pos = true :=
          (swallowed_iff_isSoft maxLen s pos hm).mp hnl
        rcases List.getElem?_eq_some.mp hnl with ⟨he, hval⟩
        rw [hsoft, if_pos hnl, if_pos rfl, List.drop_eq_getElem_cons he, hval]
        rfl
      · have hsoft : isSoft maxLen s pos = false := by
          cases hs : isSoft maxLen s pos with
          | true => exact absurd ((swallowed_iff_isSoft maxLen s pos hm).mpr hs) hnl
          | false => rfl
        rw [hsoft, if_neg hnl]
        simp
    · rw [splitLoop_stop maxLen marker fid s fuel pos trig idx hpos] at h
      simp only [Option.some.injEq] at h
      subst h
      rw [softFlags_stop maxLen s fuel pos hpos]
      simp [joinChunks, List.drop_of_length_le (Nat.le_of_not_lt hpos)]

/-! ### Per-block invariants: length bound and non-emptiness -/

/-- Every emitted block's content is at most `maxLen` characters. -/
theorem splitLoop_length_le (maxLen : Nat) (marker : List Char) (fid : String) (s : List Char) :
    ∀ (fuel pos : Nat) (trig : Bool) (idx : Nat) (bs : List TextBlock),
      splitLoop maxLen marker fid s fuel pos trig idx = some bs →
      ∀ b ∈ bs, b.content.length ≤ maxLen
  | 0, pos, trig, idx, bs, h => by rw [splitLoop_zero] at h; cases h
  | fuel + 1, pos, trig, idx, bs, h => by
    by_cases hpos : pos < s.length
    · rw [splitLoop_step maxLen marker fid s fuel pos trig idx hpos] at h
      rcases Option.map_eq_some'.mp h with ⟨bs', hrec, hbs⟩
      subst hbs
      intro b hb
      rcases List.mem_cons.mp hb with hb | hb
      · subst hb
        simp only [List.length_take, List.length_drop]
        have := nextEnd_sub_le maxLen s pos
        omega
      · exact splitLoop_length_le maxLen marker fid s fuel _ _ _ bs' hrec b hb
    · rw [splitLoop_stop maxLen marker fid s fuel pos trig idx hpos] at h
      simp only [Option.some.injEq] at h
      subst h
      intro b hb
      cases hb

/-- With `maxLen ≥ 1`, every emitted block's content is non-empty. -/
theorem splitLoop_ne_nil (maxLen : Nat) (marker : List Char) (fid : String) (s : List Char)
    (hm : 1 ≤ maxLen) :
    ∀ (fuel pos : Nat) (trig : Bool) (idx : Nat) (bs : List TextBlock),
      splitLoop maxLen marker fid s fuel pos trig idx = some bs →
      ∀ b ∈ bs, b.content ≠ []
  | 0, pos, trig, idx, bs, h => by rw [splitLoop_zero] at h; cases h
  | fuel + 1, pos, trig, idx, bs, h => by
    by_cases hpos : pos < s.length
    · rw [splitLoop_step maxLen marker fid s fuel pos trig idx hpos] at h
      rcases Option.map_eq_some'.mp h with ⟨bs', hrec, hbs⟩
      subst hbs
      intro b hb
      rcases List.mem_cons.mp hb with hb | hb
      · subst hb
        have hpe : pos < nextEnd maxLen s pos := nextEnd_gt maxLen s pos hm hpos
        simp only [ne_eq, ← List.length_eq_zero, List.length_take, List.length_drop]
        omega
      · exact splitLoop_ne_nil maxLen marker fid s hm fuel _ _ _ bs' hrec b hb
    · rw [splitLoop_stop maxLen marker fid s fuel pos trig idx hpos] at h
      simp only [Option.some.injEq] at h
      subst h
      intro b hb
      cases hb

/-! ### Classification: the one-directional state machine -/

/-- Loop invariant behind classification monotonicity: starting already
triggered yields only `POST_SPECIAL`; starting untriggered yields a category
sequence matching `NORMAL* (SPECIAL_TRIGGER POST_SPECIAL*)?`. -/
theorem splitLoop_cats (maxLen : Nat) (marker : List Char) (fid : String) (s : List Char) :
    ∀ (fuel pos : Nat) (trig : Bool) (idx : Nat) (bs : List TextBlock),
      splitLoop maxLen marker fid s fuel pos trig idx = some bs →
      (trig = true → afterOk (bs.map TextBlock.type) = true) ∧
        (trig = false → catsOk (bs.map TextBlock.type) = true)
  | 0, pos, trig, idx, bs, h => by rw [splitLoop_zero] at h; cases h
  | fuel + 1, pos, trig, idx, bs, h => by
    by_cases hpos : pos < s.length
    · rw [splitLoop_step maxLen marker fid s fuel pos trig idx hpos] at h
      rcases Option.map_eq_some'.mp h with ⟨bs', hrec, hbs⟩
      subst hbs
      have ih := splitLoop_cats maxLen marker fid s fuel _ _ _ bs' hrec
      constructor
      · intro htr
        subst htr
        exact ih.1 rfl
      · intro htr
        subst htr
        cases hsp : containsSeq (List.take (nextEnd maxLen s pos - pos) (List.drop pos s)) marker with
        | true => exact ih.1 (by simp [hsp])
        | false => exact ih.2 (by simp [hsp])
    · rw [splitLoop_stop maxLen marker fid s fuel pos trig idx hpos] at h
      simp only [Option.some.injEq] at h
      subst h
      exact ⟨fun _ => rfl, fun _ => rfl⟩

/-! ### The run token influences only identifiers -/

/-- The content and category of every block are independent of the run token
`fid` and the running block index: only the identifiers differ. -/
theorem splitLoop_fid_irrelevant (maxLen : Nat) (marker : List Char)
    (fid₁ fid₂ : String) (s : List Char) :
    ∀ (fuel pos : Nat) (trig : Bool) (idx₁ idx₂ : Nat),
      (splitLoop maxLen marker fid₁ s fuel pos trig idx₁).map
          (List.map fun b => (b.content, b.type)) =
        (splitLoop maxLen marker fid₂ s fuel pos trig idx₂).map
          (List.map fun b => (b.content, b.type))
  | 0, pos, trig, idx₁, idx₂ => by rw [splitLoop_zero, splitLoop_zero]
  | fuel + 1, pos, trig, idx₁, idx₂ => by
    by_cases hpos : pos < s.length
    · rw [splitLoop_step maxLen marker fid₁ s fuel pos trig idx₁ hpos,
        splitLoop_step maxLen marker fid₂ s fuel pos trig idx₂ hpos]
      have ih := splitLoop_fid_irrelevant maxLen marker fid₁ fid₂ s fuel
        (if s[nextEnd maxLen s pos]? = some '\n' then nextEnd maxLen s pos + 1
         else nextEnd maxLen s pos)
        (trig || containsSeq ((s.drop pos).take (nextEnd maxLen s pos - pos)) marker)
        (idx₁ + 1) (idx₂ + 1)
      cases h₁ : splitLoop maxLen marker fid₁ s fuel
          (if s[nextEnd maxLen s pos]? = some '\n' then nextEnd maxLen s pos + 1
           else nextEnd maxLen s pos)
          (trig || containsSeq ((s.drop pos).take (nextEnd maxLen s pos - pos)) marker)
          (idx₁ + 1) with
      | none =>
        rw [h₁] at ih
        cases h₂ : splitLoop maxLen marker fid₂ s fuel
            (if s[nextEnd maxLen s pos]? = some '\n' then nextEnd maxLen s pos + 1
             else nextEnd maxLen s pos)
            (trig || containsSeq ((s.drop pos).take (nextEnd maxLen s pos - pos)) marker)
            (idx₂ + 1) with
        | none => rfl
        | some bs₂ => rw [h₂] at ih; cases ih
      | some bs₁ =>
        rw [h₁] at ih
        cases h₂ : splitLoop maxLen marker fid₂ s fuel
            (if s[nextEnd maxLen s pos]? = some '\n' then nextEnd maxLen s pos + 1
             else nextEnd maxLen s pos)
            (trig || containsSeq ((s.drop pos).take (nextEnd maxLen s pos - pos)) marker)
            (idx₂ + 1) with
        | none => rw [h₂] at ih; cases ih
        | some bs₂ =>
          rw [h₂] at ih
          simp only [Option.map_some', Option.some.injEq] at ih ⊢
          simp only [List.map_cons, ih]
    · rw [splitLoop_stop maxLen marker fid₁ s fuel pos trig idx₁ hpos,
        splitLoop_stop maxLen marker fid₂ s fuel pos trig idx₂ hpos]

/-! ### From the loop to `splitTextGen` -/

theorem splitText_eq (fid : String) (text : List Char) :
    splitText fid text = splitTextGen MAX_CHARS specialMarker fid text := rfl

/-- With `maxLen ≥ 1`, the fuel `length + 1` lets the loop finish, and
`splitTextGen` is exactly its result. -/
theorem splitTextGen_spec (maxLen : Nat) (marker : List Char) (fid : String) (text : List Char)
    (hm : 1 ≤ maxLen) :
    splitLoop maxLen marker fid (sanitize text) ((sanitize text).length + 1) 0 false 0 =
      some (splitTextGen maxLen marker fid text) := by
  have h := splitLoop_isSome maxLen marker fid (sanitize text) hm
    ((sanitize text).length + 1) 0 false 0 (by omega)
  rcases Option.isSome_iff_exists.mp h with ⟨bs, hbs⟩
  rw [hbs, splitTextGen]
  simp [hbs]

/-! ### Lemmas about `sanitize` and `containsSeq` -/

/-- Inputs without CR are left unchanged by normalization. -/
theorem sanitize_of_no_cr : ∀ s : List Char, (∀ x ∈ s, x ≠ '\r') → sanitize s = s
  | [], _ => rfl
  | [_], _ => rfl
  | a :: b :: rest, h => by
    rw [sanitize, if_neg (fun hc => h a (List.mem_cons_self a _) hc.1)]
    rw [sanitize_of_no_cr (b :: rest) (fun x hx => h x (List.mem_cons_of_mem a hx))]

theorem isPrefixList_refl : ∀ p : List Char, isPrefixList p p = true
  | [] => rfl
  | _ :: rest => by rw [isPrefixList, if_pos rfl]; exact isPrefixList_refl rest

/-- A string that ends in `pat` contains `pat`. -/
theorem containsSeq_append_self : ∀ (l pat : List Char), containsSeq (l ++ pat) pat = true
  | [], pat => by
    cases pat with
    | nil => rfl
    | cons a rest =>
      rw [List.nil_append, containsSeq, isPrefixList_refl, Bool.true_or]
  | a :: l, pat => by
    rw [List.cons_append, containsSeq, containsSeq_append_self l pat, Bool.or_true]

/-- Normalization of an input without consecutive CRs yields no CRLF.  (In
general it can: a CR immediately before a replaced CRLF survives next to the
replacement LF.) -/
theorem sanitize_no_crlf : ∀ s : List Char, containsSeq s ['\r', '\r'] = false →
    containsSeq (sanitize s) ['\r', '\n'] = false
  | [], _ => rfl
  | [a], _ => by
    rw [sanitize]
    by_cases h : '\r' = a <;> simp [containsSeq, isPrefixList, h]
  | a :: b :: rest, h => by
    simp only [containsSeq, Bool.or_eq_false_iff] at h
    obtain ⟨hp1, hp2, hcs⟩ := h
    rw [sanitize]
    by_cases hab : a = '\r' ∧ b = '\n'
    · rw [if_pos hab]
      have ih := sanitize_no_crlf rest hcs
      simp [containsSeq, isPrefixList, ih]
    · rw [if_neg hab]
      have hbrest : containsSeq (b :: rest) ['\r', '\r'] = false := by
        rw [containsSeq, hp2, hcs]
        rfl
      have ih := sanitize_no_crlf (b :: rest) hbrest
      rw [containsSeq, ih, Bool.or_false]
      by_cases hra : '\r' = a
      · subst hra
        have hbn : b ≠ '\n' := fun hbn => hab ⟨rfl, hbn⟩
        have hbr : b ≠ '\r' := by
          intro hbr
          rw [isPrefixList, if_pos rfl, isPrefixList, if_pos hbr.symm] at hp1
          cases hp1
        rw [isPrefixList, if_pos rfl]
        cases rest with
        | nil =>
          rw [sanitize, isPrefixList, if_neg (fun hh => hbn hh.symm)]
        | cons c rest' =>
          rw [sanitize, if_neg (fun hc => hbr hc.1), isPrefixList,
            if_neg (fun hh => hbn hh.symm)]
      · rw [isPrefixList, if_neg hra]

/-! ### The C4 scenario: a marker split across a hard break is missed -/

theorem c4input_length : c4input.length = 4952 := by
  rw [c4input, List.length_append, List.length_replicate]
  rfl

theorem newline_not_mem_c4input : '\n' ∉ c4input := by
  intro h
  rcases List.mem_append.mp h with h | h
  · exact absurd (List.eq_of_mem_replicate h) (by decide)
  · exact absurd h (by decide)

theorem no_cr_c4input : ∀ x ∈ c4input, x ≠ '\r' := by
  intro x hx
  rcases List.mem_append.mp hx with h | h
  · rw [List.eq_of_mem_replicate h]
    decide
  · simp only [specialMarker, List.mem_cons, List.not_mem_nil, or_false] at h
    rcases h with h | h | h | h <;> subst h <;> decide

theorem sanitize_c4input : sanitize c4input = c4input :=
  sanitize_of_no_cr c4input no_cr_c4input

/-- The filler chunk followed by the first half `[&` of the marker does not
contain the full marker. -/
theorem containsSeq_fill : ∀ n : Nat,
    containsSeq (List.replicate n 'a' ++ ['[', '&']) specialMarker = false
  | 0 => by decide
  | n + 1 => by
    rw [List.replicate_succ, List.cons_append, containsSeq]
    have h1 : isPrefixList specialMarker ('a' :: (List.replicate n 'a' ++ ['[', '&'])) =
        false := rfl
    rw [h1, Bool.false_or, containsSeq_fill n]

theorem c4_nextEnd_0 : nextEnd MAX_CHARS c4input 0 = 4950 := by
  rw [nextEnd, if_pos (by rw [c4input_length]; decide),
    lastIndexOfFrom_of_not_mem c4input '\n' (0 + MAX_CHARS) newline_not_mem_c4input]
  rfl

theorem c4_nextEnd_4950 : nextEnd MAX_CHARS c4input 4950 = 4952 := by
  rw [nextEnd, if_neg (by rw [c4input_length]; decide), c4input_length]

theorem c4_chunk_0 :
    List.take (4950 - 0) (List.drop 0 c4input) =
      List.replicate 4948 'a' ++ ['[', '&'] := by
  rw [List.drop_zero, Nat.sub_zero, c4input,
    List.take_append_eq_append_take, List.length_replicate,
    List.take_of_length_le (by rw [List.length_replicate]; omega)]
  rw [show List.take (4950 - 4948) specialMarker = ['[', '&'] from rfl]

theorem c4_chunk_4950 :
    List.take (4952 - 4950) (List.drop 4950 c4input) = ['$', ']'] := by
  rw [c4input, List.drop_append_eq_append_drop, List.length_replicate,
    List.drop_of_length_le (by rw [List.length_replicate]; omega)]
  rfl

theorem c4_getElem_4950 : c4input[4950]? = some '$' := by
  rw [c4input, List.getElem?_append_right (by rw [List.length_replicate]; omega),
    List.length_replicate]
  rfl

theorem c4_getElem_4952 : c4input[4952]? = none :=
  List.getElem?_eq_none (le_of_eq c4input_length)

/-- C4: there is an input whose normalized text contains the marker `[&$]`,
yet segmentation at the production configuration produces no
`SPECIAL_TRIGGER` block: the hard break at `MAX_CHARS = 4950` falls between
`[&` and `$]`, so neither chunk contains the full marker and both blocks are
classified `NORMAL`. -/
theorem C4_marker_split_missed :
    containsSeq (sanitize c4input) specialMarker = true ∧
      (splitText "t" c4input).map (fun b => (b.content, b.type)) =
        [(List.replicate 4948 'a' ++ ['[', '&'], BlockType.NORMAL),
         (['$', ']'], BlockType.NORMAL)] := by
  constructor
  · rw [sanitize_c4input, c4input]
    exact containsSeq_append_self _ _
  · rw [splitText_eq]
    simp only [splitTextGen]
    rw [sanitize_c4input, c4input_length]
    rw [show (4952 : Nat) + 1 = 4950 + 1 + 1 + 1 from rfl]
    rw [splitLoop_step MAX_CHARS specialMarker "t" c4input (4950 + 1 + 1) 0 false 0
      (by rw [c4input_length]; decide)]
    rw [c4_nextEnd_0, c4_chunk_0, containsSeq_fill 4948, c4_getElem_4950]
    rw [if_neg (by decide : ¬(some '$' = some '\n')), Bool.false_or]
    rw [splitLoop_step MAX_CHARS specialMarker "t" c4input (4950 + 1) 4950 false (0 + 1)
      (by rw [c4input_length]; decide)]
    rw [c4_nextEnd_4950, c4_chunk_4950,
      (by decide : containsSeq ['$', ']'] specialMarker = false), c4_getElem_4952]
    rw [if_neg (by decide : ¬((none : Option Char) = some '\n')), Bool.false_or]
    rw [splitLoop_stop MAX_CHARS specialMarker "t" c4input 4950 4952 false (0 + 1 + 1)
      (by rw [c4input_length]; decide)]
    rfl

/-! ### The claims -/

/-- C1: for every input string, the normalized text equals the concatenation
of all block contents of `splitText` in order, with a single LF reinserted at
exactly the soft-break boundaries (where one was swallowed) and nothing at
hard-break boundaries; moreover a line break is swallowed at a boundary
exactly when that boundary is a soft break. -/
theorem C1_totality_reconstruction (fid : String) (text : List Char) :
    sanitize text =
      joinChunks (((splitText fid text).map TextBlock.content).zip
        (softFlags MAX_CHARS (sanitize text) ((sanitize text).length + 1) 0)) ∧
      ∀ pos, pos < (sanitize text).length →
        ((sanitize text)[nextEnd MAX_CHARS (sanitize text) pos]? = some '\n' ↔
          isSoft MAX_CHARS (sanitize text) pos = true) := by
  constructor
  · have hspec := splitTextGen_spec MAX_CHARS specialMarker fid text (by decide)
    rw [← splitText_eq] at hspec
    have hjoin := splitLoop_join MAX_CHARS specialMarker fid (sanitize text) (by decide)
      ((sanitize text).length + 1) 0 false 0 (splitText fid text) hspec
    rw [List.drop_zero] at hjoin
    exact hjoin.symm
  · exact fun pos _ => swallowed_iff_isSoft MAX_CHARS (sanitize text) pos (by decide)

/-- C1 witness: a concrete instance of the second conjunct at `pos = 0` for
the input `"ab\ncd"`. -/
theorem C1_totality_reconstruction_witness :
    (0 < (sanitize "ab\ncd".toList).length) ∧
      ((sanitize "ab\ncd".toList)[nextEnd MAX_CHARS (sanitize "ab\ncd".toList) 0]? =
          some '\n' ↔
        isSoft MAX_CHARS (sanitize "ab\ncd".toList) 0 = true) :=
  ⟨by decide, (C1_totality_reconstruction "t" "ab\ncd".toList).2 0 (by decide)⟩

/-- C2: every block of `splitText` except possibly the last has content
length at most `MAX_CHARS = 4950`. -/
theorem C2_length_bound (fid : String) (text : List Char) :
    ((splitText fid text).dropLast).all
      (fun b => decide (b.content.length ≤ MAX_CHARS)) = true := by
  have hspec := splitTextGen_spec MAX_CHARS specialMarker fid text (by decide)
  rw [← splitText_eq] at hspec
  have hle := splitLoop_length_le MAX_CHARS specialMarker fid (sanitize text)
    ((sanitize text).length + 1) 0 false 0 (splitText fid text) hspec
  rw [List.all_eq_true]
  intro b hb
  simp only [decide_eq_true_eq]
  exact hle b (List.dropLast_subset _ hb)

/-- C3: for every input string, the category sequence of `splitText` matches
the regular pattern `NORMAL* (SPECIAL_TRIGGER POST_SPECIAL*)?`: once
triggered there is no return to `NORMAL`. -/
theorem C3_category_pattern (fid : String) (text : List Char) :
    catsOk ((splitText fid text).map TextBlock.type) = true := by
  have hspec := splitTextGen_spec MAX_CHARS specialMarker fid text (by decide)
  rw [← splitText_eq] at hspec
  exact (splitLoop_cats MAX_CHARS specialMarker fid (sanitize text)
    ((sanitize text).length + 1) 0 false 0 (splitText fid text) hspec).2 rfl

/-- C5: the run-scoped token `fid` influences only identifiers: for any two
tokens, the content and category sequences of `splitText` coincide. -/
theorem C5_run_token_irrelevant (text : List Char) (fid₁ fid₂ : String) :
    (splitText fid₁ text).map (fun b => (b.content, b.type)) =
      (splitText fid₂ text).map (fun b => (b.content, b.type)) := by
  have h := splitLoop_fid_irrelevant MAX_CHARS specialMarker fid₁ fid₂ (sanitize text)
    ((sanitize text).length + 1) 0 false 0 0
  have h1 := splitTextGen_spec MAX_CHARS specialMarker fid₁ text (by decide)
  have h2 := splitTextGen_spec MAX_CHARS specialMarker fid₂ text (by decide)
  rw [← splitText_eq] at h1 h2
  rw [h1, h2] at h
  simpa using h

/-- C6 counterexample: normalization of the input CR CR LF yields CR LF, so
the normalized output can contain a CRLF occurrence — the claim's "contains
no occurrence of the CRLF sequence" fails for this input. -/
theorem C6_counterexample :
    sanitize ['\r', '\r', '\n'] = ['\r', '\n'] ∧
      containsSeq (sanitize ['\r', '\r', '\n']) ['\r', '\n'] = true := by decide

/-- C6 (amended): normalization is one left-to-right pass replacing each
non-overlapping CRLF with LF; inputs without CR are unchanged, and the output
contains no CRLF provided the input has no two consecutive CRs (a CR
immediately before a replaced CRLF survives next to the replacement LF). -/
theorem C6_crlf_normalization (s : List Char) :
    ((∀ x ∈ s, x ≠ '\r') → sanitize s = s) ∧
      (containsSeq s ['\r', '\r'] = false →
        containsSeq (sanitize s) ['\r', '\n'] = false) :=
  ⟨sanitize_of_no_cr s, sanitize_no_crlf s⟩

/-- C6 witness: both conjuncts instantiated at the input `"a\nb"`. -/
theorem C6_crlf_normalization_witness :
    sanitize "a\nb".toList = "a\nb".toList ∧
      containsSeq (sanitize "a\nb".toList) ['\r', '\n'] = false :=
  ⟨(C6_crlf_normalization "a\nb".toList).1 (by decide),
   (C6_crlf_normalization "a\nb".toList).2 (by decide)⟩

/-- C7: for every `maxChunkLength ≥ 1`, segmentation terminates — the
boundary is strictly beyond the current position at every iteration, and the
loop completes within `length + 1` iterations. -/
theorem C7_termination (maxLen : Nat) (marker : List Char) (fid : String)
    (text : List Char) (hm : 1 ≤ maxLen) :
    (∀ pos, pos < (sanitize text).length → pos < nextEnd maxLen (sanitize text) pos) ∧
      (splitLoop maxLen marker fid (sanitize text)
        ((sanitize text).length + 1) 0 false 0).isSome = true :=
  ⟨fun pos hpos => nextEnd_gt maxLen (sanitize text) pos hm hpos,
   splitLoop_isSome maxLen marker fid (sanitize text) hm
     ((sanitize text).length + 1) 0 false 0 (by omega)⟩

/-- C7 witness: the loop completes on a concrete input at
`maxChunkLength = 5`. -/
theorem C7_termination_witness :
    (splitLoop 5 specialMarker "t" (sanitize "ab".toList)
      ((sanitize "ab".toList).length + 1) 0 false 0).isSome = true :=
  (C7_termination 5 specialMarker "t" "ab".toList (by decide)).2

/-- C8: with `maxChunkLength = 5` and marker `[&$]`, the input
`"aaaaa\nbbbbb[&$]cc\nddddd"` yields exactly the five blocks
`"aaaaa"` NORMAL, `"bbbbb"` NORMAL, `"[&$]c"` SPECIAL_TRIGGER,
`"c"` POST_SPECIAL, `"ddddd"` POST_SPECIAL. -/
theorem C8_concrete_scenario :
    (splitTextGen 5 specialMarker "t" "aaaaa\nbbbbb[&$]cc\nddddd".toList).map
        (fun b => (b.content, b.type)) =
      [("aaaaa".toList, BlockType.NORMAL), ("bbbbb".toList, BlockType.NORMAL),
       ("[&$]c".toList, BlockType.SPECIAL_TRIGGER), ("c".toList, BlockType.POST_SPECIAL),
       ("ddddd".toList, BlockType.POST_SPECIAL)] := by decide

/-- C9: an invalid configuration — non-positive `maxChunkLength` or empty
`marker` — is reported as `InvalidConfiguration` at the boundary and
segmentation is not run (modelled from the spec, §7). -/
theorem C9_invalid_config_rejected (cfg : SplitConfig) (fid : String) (text : List Char)
    (h : cfg.maxChunkLength < 1 ∨ cfg.marker = []) :
    runSegmentation cfg fid text = .error .InvalidConfiguration := by
  rw [runSegmentation, validateConfig, if_pos h]

/-- C9 witness: the boundary rejects `maxChunkLength = 0`. -/
theorem C9_invalid_config_rejected_witness :
    runSegmentation ⟨0, ['[']⟩ "t" ['a'] = .error .InvalidConfiguration :=
  C9_invalid_config_rejected ⟨0, ['[']⟩ "t" ['a'] (Or.inl (by decide))

/-- C10: every block emitted by `splitText` has non-empty content. -/
theorem C10_blocks_nonempty (fid : String) (text : List Char) :
    (splitText fid text).all (fun b => decide (b.content ≠ [])) = true := by
  have hspec := splitTextGen_spec MAX_CHARS specialMarker fid text (by decide)
  rw [← splitText_eq] at hspec
  have hne := splitLoop_ne_nil MAX_CHARS specialMarker fid (sanitize text) (by decide)
    ((sanitize text).length + 1) 0 false 0 (splitText fid text) hspec
  rw [List.all_eq_true]
  intro b hb
  simpa using hne b hb
